import Mathlib
set_option maxHeartbeats 1000000
set_option maxRecDepth 100000

/-!
Verification of the Sudoku game core (board geometry, conflict tracker,
generator, and session handlers) against its natural-language specification.

The board is a 9×9 grid of optional digits.  The conflict map of the source
is a JavaScript `Map` from "row,col" keys to positive counts; since the code
only ever stores positive counts (every `set` stores at least 1, and
`removeConflictsForCell` deletes an entry instead of storing 0), we embed it
as a total function from cells to ℕ where the value 0 plays the role of
"key absent".
-/
abbrev Cell : Type := Fin 9 × Fin 9
abbrev Board : Type := Fin 9 → Fin 9 → Option Nat
abbrev ConflictMap : Type := Cell → Nat
/-- `createEmptyBoard` from util: a 9×9 array filled with nulls. -/
def createEmptyBoard : Board := fun _ _ => none
/-- Writing a single cell of a board (`board[r][c] = v` on a fresh copy). -/
def updateBoard (b : Board) (r c : Fin 9) (v : Option Nat) : Board :=
  fun r' c' => if r' = r ∧ c' = c then v else b r' c'
/-- `Math.floor(x / 3) * 3`, the top-left coordinate of the 3×3 block. -/
def blockBase (x : Fin 9) : Fin 9 :=
  ⟨x.val / 3 * 3, by have := x.isLt; omega⟩
/-- The block cell visited by the source's nested block loop at offsets
`(i, j)` from the block base of `(row, col)`. -/
def blockCellAt (row col : Fin 9) (i j : Fin 3) : Cell :=
  (⟨(blockBase row).val + i.val, by have := row.isLt; have := i.isLt; simp only [blockBase]; omega⟩,
   ⟨(blockBase col).val + j.val, by have := col.isLt; have := j.isLt; simp only [blockBase]; omega⟩)
/-- Two cells lie in the same 3×3 block. -/
def sameBlockPair (p q : Cell) : Prop :=
  blockBase p.1 = blockBase q.1 ∧ blockBase p.2 = blockBase q.2
instance : DecidablePred (fun pq : Cell × Cell => sameBlockPair pq.1 pq.2) :=
  fun _ => by unfold sameBlockPair; infer_instance
instance sameBlockPair.dec (p q : Cell) : Decidable (sameBlockPair p q) := by
  unfold sameBlockPair; infer_instance
/-- Two distinct cells are peers when they share a row, a column, or a block
(the glossary's notion of cells that can be "in conflict"). -/
def peersPair (p q : Cell) : Prop :=
  p.1 = q.1 ∨ p.2 = q.2 ∨ sameBlockPair p q
instance peersPair.dec (p q : Cell) : Decidable (peersPair p q) := by
  unfold peersPair; infer_instance
/-- `conflicts.set(key, (conflicts.get(key) ?? 0) + 1)` of the source. -/
def bump (m : ConflictMap) (k : Cell) : ConflictMap :=
  Function.update m k (m k + 1)
/-- Body of the row-and-column loop of `getConflicts` (index `i`). -/
def rowColStep (b : Board) (row col : Fin 9) (val : Nat) (m : ConflictMap) (i : Fin 9) :
    ConflictMap :=
  let m1 := if i ≠ col ∧ b row i = some val then bump (bump m (row, i)) (row, col) else m
  if i ≠ row ∧ b i col = some val then bump (bump m1 (i, col)) (row, col) else m1
/-- Body of the block loop of `getConflicts` (offsets `(i, j)`). -/
def blockStep (b : Board) (row col : Fin 9) (val : Nat) (m : ConflictMap) (ij : Fin 3 × Fin 3) :
    ConflictMap :=
  let p := blockCellAt row col ij.1 ij.2
  if p ≠ (row, col) ∧ b p.1 p.2 = some val then bump (bump m p) (row, col) else m
/-- The index pairs visited by the nested block loop, in source order. -/
def blockPairs : List (Fin 3 × Fin 3) :=
  (List.finRange 3).flatMap fun i => (List.finRange 3).map fun j => (i, j)
/-- `getConflicts` from util: scans the row, the column and the 3×3 block of
`(row, col)` for cells (other than the cell itself) holding `val`, and for
every match bumps both the matched cell's entry and the queried cell's entry. -/
def getConflicts (b : Board) (row col : Fin 9) (val : Nat) : ConflictMap :=
  let afterRowCol := (List.finRange 9).foldl (rowColStep b row col val) (fun _ => 0)
  blockPairs.foldl (blockStep b row col val) afterRowCol
/-- `removeConflictsForCell` from util: re-scans with `getConflicts`, subtracts
the found counts from the map (deleting entries that drop to (or below) zero),
and deletes the cell's own entry unconditionally. -/
def removeConflictsForCell (b : Board) (conflicts : ConflictMap) (row col : Fin 9)
    (value : Nat) : ConflictMap :=
  let targetConflicts := getConflicts b row col value
  fun k =>
    if k = (row, col) then 0
    else if 0 < targetConflicts k then
      if conflicts k ≤ targetConflicts k then 0 else conflicts k - targetConflicts k
    else conflicts k
/-- The merge loop of `handleInBounds`: for each entry of `targetConflicts`,
add its count to the map's current count. -/
def mergeConflicts (m targetConflicts : ConflictMap) : ConflictMap :=
  fun k => m k + targetConflicts k
/-- Contribution of row-and-column loop iteration `i` to the entry of key `k`. -/
def rcContrib (b : Board) (row col : Fin 9) (val : Nat) (i : Fin 9) (k : Cell) : Nat :=
  (if i ≠ col ∧ b row i = some val then
    (if k = (row, i) then 1 else 0) + (if k = (row, col) then 1 else 0) else 0) +
  (if i ≠ row ∧ b i col = some val then
    (if k = (i, col) then 1 else 0) + (if k = (row, col) then 1 else 0) else 0)
/-- Contribution of block loop iteration `ij` to the entry of key `k`. -/
def blkContrib (b : Board) (row col : Fin 9) (val : Nat) (ij : Fin 3 × Fin 3) (k : Cell) : Nat :=
  if blockCellAt row col ij.1 ij.2 ≠ (row, col) ∧
      b (blockCellAt row col ij.1 ij.2).1 (blockCellAt row col ij.1 ij.2).2 = some val then
    (if k = blockCellAt row col ij.1 ij.2 then 1 else 0) + (if k = (row, col) then 1 else 0)
  else 0
/-- Number of matches found by the row scan of `getConflicts`. -/
def rowScanCount (b : Board) (row col : Fin 9) (val : Nat) : Nat :=
  ((Finset.univ : Finset (Fin 9)).filter fun i => i ≠ col ∧ b row i = some val).card
/-- Number of matches found by the column scan of `getConflicts`. -/
def colScanCount (b : Board) (row col : Fin 9) (val : Nat) : Nat :=
  ((Finset.univ : Finset (Fin 9)).filter fun i => i ≠ row ∧ b i col = some val).card
/-- Number of matches found by the block scan of `getConflicts`. -/
def blockScanCount (b : Board) (row col : Fin 9) (val : Nat) : Nat :=
  ((Finset.univ : Finset Cell).filter fun p =>
    sameBlockPair p (row, col) ∧ p ≠ (row, col) ∧ b p.1 p.2 = some val).card
/-- Indicator: key `k` is hit by the row scan of a query at `(row, col)`. -/
def rowInd (b : Board) (row col : Fin 9) (val : Nat) (k : Cell) : Nat :=
  if k.1 = row ∧ k.2 ≠ col ∧ b row k.2 = some val then 1 else 0
/-- Indicator: key `k` is hit by the column scan of a query at `(row, col)`. -/
def colInd (b : Board) (row col : Fin 9) (val : Nat) (k : Cell) : Nat :=
  if k.2 = col ∧ k.1 ≠ row ∧ b k.1 col = some val then 1 else 0
/-- Indicator: key `k` is hit by the block scan of a query at `(row, col)`. -/
def blkInd (b : Board) (row col : Fin 9) (val : Nat) (k : Cell) : Nat :=
  if sameBlockPair k (row, col) ∧ k ≠ (row, col) ∧ b k.1 k.2 = some val then 1 else 0
/-! ### Claim C3: conflict count versus distinct duplicate peers -/
/-- Modelled from the claim's words (not from the source): the number of
distinct peer cells — cells sharing the row, the column, or the 3×3 block of
`(row, col)`, excluding the cell itself — that currently hold `val`. -/
def specPeerCount (b : Board) (row col : Fin 9) (val : Nat) : Nat :=
  ((Finset.univ : Finset Cell).filter fun p =>
    p ≠ (row, col) ∧ peersPair p (row, col) ∧ b p.1 p.2 = some val).card
/-- A board holding a single 5 at (0,1). -/
def boardC3 : Board := updateBoard createEmptyBoard 0 1 (some 5)
/-- Board with 5 at (0,0) and at (0,5) — a single row conflict. -/
def boardC6 : Board :=
  updateBoard (updateBoard createEmptyBoard 0 0 (some 5)) 0 5 (some 5)
/-- The conflict map consistent with `boardC6`. -/
def mapC6 : ConflictMap :=
  fun k => if k = ((0 : Fin 9), (0 : Fin 9)) ∨ k = ((0 : Fin 9), (5 : Fin 9)) then 1 else 0
/-! ### The generator: `generateSolvedSudoku` and `generatePuzzledifficulty`

The source shuffles the digit list `[1..9]` before each cell and shuffles the
81 positions before carving.  We model the randomness by passing the shuffled
lists in as parameters: `rand n` is the digit order used at recursion depth
`n`, and `positions` is the shuffled coordinate list.  The backtracking
recursion of `solve` places one digit per recursive call and an empty board
has 81 empty cells, so fuel 82 covers every execution. -/
def digits : List Nat := [1, 2, 3, 4, 5, 6, 7, 8, 9]
/-- The 81 coordinates in row-major order (the source's nested loops). -/
def allPositions : List Cell :=
  (List.finRange 9).flatMap fun r => (List.finRange 9).map fun c => (r, c)
/-- The row-major scan for the first empty cell in `solve`. -/
def firstEmpty (b : Board) : Option Cell :=
  allPositions.find? fun p => (b p.1 p.2).isNone
/-- Number of empty cells of a board. -/
def emptyCount (b : Board) : Nat :=
  ((Finset.univ : Finset Cell).filter fun p => b p.1 p.2 = none).card
/-- The `for (const num of nums)` loop of `solve`: try each candidate digit in
order; place it if it produces zero conflicts, recurse, and undo on failure. -/
def tryNums (solveNext : Board → Option Board) (b : Board) (r c : Fin 9) :
    List Nat → Option Board
  | [] => none
  | num :: rest =>
    if ∀ k, getConflicts b r c num k = 0 then
      match solveNext (updateBoard b r c (some num)) with
      | some b2 => some b2
      | none => tryNums solveNext b r c rest
    else tryNums solveNext b r c rest
/-- The recursive `solve` of `generateSolvedSudoku`, with explicit fuel (the
recursion depth is bounded by the number of empty cells). -/
def solveFuel (rand : Nat → List Nat) : Nat → Nat → Board → Option Board
  | 0, _, _ => none
  | fuel + 1, depth, b =>
    match firstEmpty b with
    | none => some b
    | some (r, c) => tryNums (solveFuel rand fuel (depth + 1)) b r c (rand depth)
/-- `generateSolvedSudoku` from util: run the backtracking solver on an empty
board and return the resulting board. -/
def generateSolvedSudoku (rand : Nat → List Nat) : Board :=
  match solveFuel rand 82 0 createEmptyBoard with
  | some b => b
  | none => createEmptyBoard
/-- The difficulty enumeration of the source. -/
inductive Difficulty where
  | easy
  | medium
  | hard
  | imTooYoungToDie
deriving DecidableEq
/-- The `switch (difficulty)` table of `generatePuzzledifficulty`. -/
def removalCount : Difficulty → Nat
  | .imTooYoungToDie => 2
  | .easy => 35
  | .medium => 45
  | .hard => 55
/-- The removal loop of `generatePuzzledifficulty`: null the first
`min n positions.length` shuffled positions on a copy of the solved board. -/
def removeCells (solved : Board) (positions : List Cell) (n : Nat) : Board :=
  (positions.take n).foldl (fun b p => updateBoard b p.1 p.2 none) solved
/-- `generatePuzzledifficulty` from util, with the two shuffles passed in:
returns `(puzzle, solution)`. -/
def generatePuzzledifficulty (rand : Nat → List Nat) (positions : List Cell)
    (difficulty : Difficulty) : Board × Board :=
  let solved := generateSolvedSudoku rand
  (removeCells solved positions (removalCount difficulty), solved)
/-- No cell of the board is empty. -/
def fullBoard (b : Board) : Prop := ∀ p : Cell, b p.1 p.2 ≠ none
/-- No two distinct peer cells hold the same value. -/
def noDupBoard (b : Board) : Prop :=
  ∀ p q : Cell, p ≠ q → peersPair p q → ∀ w, b p.1 p.2 = some w → b q.1 q.2 ≠ some w
/-- Every value on the board is a digit 1..9. -/
def boundedBoard (b : Board) : Prop :=
  ∀ (p : Cell) (w : Nat), b p.1 p.2 = some w → 1 ≤ w ∧ w ≤ 9
/-- `B` extends `b`: every filled cell of `b` is filled identically in `B`. -/
def boardLe (b B : Board) : Prop :=
  ∀ (p : Cell) (w : Nat), b p.1 p.2 = some w → B p.1 p.2 = some w
/-- The board can be completed to a full valid solved board. -/
def completable (b : Board) : Prop :=
  ∃ B, boardLe b B ∧ fullBoard B ∧ noDupBoard B ∧ boundedBoard B
/-- The set of values of row `r`. -/
def rowVals (b : Board) (r : Fin 9) : Finset Nat :=
  Finset.univ.image fun c => (b r c).getD 0
/-- The set of values of column `c`. -/
def colVals (b : Board) (c : Fin 9) : Finset Nat :=
  Finset.univ.image fun r => (b r c).getD 0
/-- The set of values of the 3×3 block with block coordinates `(i, j)`. -/
def blockVals (b : Board) (i j : Fin 3) : Finset Nat :=
  Finset.univ.image fun uv : Fin 3 × Fin 3 =>
    (b ⟨i.val * 3 + uv.1.val, by have := i.isLt; have := uv.1.isLt; omega⟩
       ⟨j.val * 3 + uv.2.val, by have := j.isLt; have := uv.2.isLt; omega⟩).getD 0
/-- A concrete valid solved board, witnessing that the empty board is
completable. -/
def canonicalBoard : Board :=
  fun r c => some ((3 * (r.val % 3) + r.val / 3 + c.val) % 9 + 1)
/-! ### The session state and its handlers (`SudokuContext.tsx`)

A handler in the source issues several dispatches that the reducer folds into
the state one after another; each handler is embedded as a single function
producing the resulting state.  The score uses `Math.max(... , 0)` on a JS
number, so scores are embedded as integers clamped with `max`; lives may go
negative transiently and are integers.  `hints` keys and `selected` are cells.
The `dragValue` of the source is a digit or `null`; the reducer's `NEW_GAME`
branch supplies the initial field values. -/
inductive GameStatus where
  | win
  | lose
  | playing
  | idle
deriving DecidableEq
structure GameState where
  board : Board
  originalBoard : Board
  solution : Board
  score : Int
  lives : Int
  status : GameStatus
  selected : Option Cell
  conflicts : ConflictMap
  hints : Finset Cell
  dragValue : Option Nat
  showSolution : Bool
/-- The reducer's `NEW_GAME` action applied to any state. -/
def newGameState (puzzle solution : Board) : GameState :=
  { board := puzzle
    originalBoard := puzzle
    solution := solution
    score := 0
    lives := 6
    status := .playing
    selected := none
    conflicts := fun _ => 0
    hints := ∅
    dragValue := none
    showSolution := false }
/-- `newGame` of the provider: it always generates with difficulty `easy`. -/
def newGame (rand : Nat → List Nat) (positions : List Cell) : GameState :=
  let pz := generatePuzzledifficulty rand positions .easy
  newGameState pz.1 pz.2
/-- `fixedCells` of the provider: cells that are non-null in `originalBoard`. -/
def fixedCells (s : GameState) (p : Cell) : Prop :=
  s.originalBoard p.1 p.2 ≠ none
instance fixedCells.dec (s : GameState) (p : Cell) : Decidable (fixedCells s p) := by
  unfold fixedCells
  infer_instance
/-- The JS guard `!state.dragValue` (falsy for `null` and for `0`). -/
def dragMissing (s : GameState) : Prop :=
  s.dragValue = none ∨ s.dragValue = some 0
instance dragMissing.dec (s : GameState) : Decidable (dragMissing s) := by
  unfold dragMissing
  infer_instance
/-- `isInvalidDrop`: no drag value, target fixed, or target equals source. -/
def isInvalidDrop (s : GameState) (source : Option Cell) (t : Cell) : Prop :=
  dragMissing s ∨ fixedCells s t ∨ source = some t
instance isInvalidDrop.dec (s : GameState) (source : Option Cell) (t : Cell) :
    Decidable (isInvalidDrop s source t) := by
  unfold isInvalidDrop
  infer_instance
/-- The shared retraction block of `handleOutOfBounds` and `handleInBounds`:
if the source cell holds a value, deduct 20 when the source has no recorded
conflict, and subtract the cell's contribution via `removeConflictsForCell`.
Returns the updated map and the score delta. -/
def retractSource (s : GameState) (sr sc : Fin 9) : ConflictMap × Int :=
  match s.board sr sc with
  | some sv =>
    (removeConflictsForCell s.board s.conflicts sr sc sv,
      if s.conflicts (sr, sc) = 0 then -20 else 0)
  | none => (s.conflicts, 0)
/-- `handleOutOfBounds`: clear the source cell, retract its contribution,
delete its map entry, clamp the score, clear drag value and selection. -/
def handleOutOfBounds (s : GameState) (sr sc : Fin 9) : GameState :=
  let b1 := updateBoard s.board sr sc none
  let rs := retractSource s sr sc
  let m2 : ConflictMap := fun k => if k = (sr, sc) then 0 else rs.1 k
  { s with
    board := b1
    conflicts := m2
    score := max (s.score + rs.2) 0
    dragValue := none
    selected := none }
/-- `handleInBounds`: treat a missing source as the target itself, retract the
source cell's contribution, write the dragged value into the target, then
either merge the new conflicts (losing a life and 10 points) or award 20
points for a clean placement into a previously empty cell.  `handleDrop` only
calls this with a drag value present; the `none` branch is unreachable. -/
def applyInBounds (s : GameState) (source : Option Cell) (tr tc : Fin 9) (value : Nat) :
    GameState :=
    let src := source.getD (tr, tc)
    let rs := retractSource s src.1 src.2
    let b2 := updateBoard (updateBoard s.board src.1 src.2 none) tr tc (some value)
    let targetConflicts := getConflicts b2 tr tc value
    if ∃ k, 0 < targetConflicts k then
      { s with
        board := b2
        conflicts := mergeConflicts rs.1 targetConflicts
        lives := s.lives - 1
        score := max (s.score + rs.2 - 10) 0
        selected := some (tr, tc)
        dragValue := none }
    else if s.board tr tc = none then
      { s with
        board := b2
        conflicts := rs.1
        score := max (s.score + rs.2 + 20) 0
        selected := some (tr, tc)
        dragValue := none }
    else
      { s with
        board := b2
        conflicts := rs.1
        score := max (s.score + rs.2) 0
        selected := some (tr, tc)
        dragValue := none }
def handleInBounds (s : GameState) (source : Option Cell) (tr tc : Fin 9) : GameState :=
  match s.dragValue with
  | none => s
  | some value => applyInBounds s source tr tc value
/-- `handleDrop`: no target means an out-of-bounds drop (only meaningful with
a board-cell source); otherwise reject invalid drops and delegate. -/
def handleDrop (s : GameState) (source target : Option Cell) : GameState :=
  match target with
  | none =>
    match source with
    | some p => handleOutOfBounds s p.1 p.2
    | none => s
  | some t => if isInvalidDrop s source t then s else handleInBounds s source t.1 t.2
/-- `addHint` with the random choice `(r, c)` made explicit: write the
solution value, delete the cell's conflict entry, select it, record the hint
and deduct a life (the reducer's `ADD_HINT`). -/
def addHintAt (s : GameState) (r c : Fin 9) : GameState :=
  { s with
    board := updateBoard s.board r c (s.solution r c)
    conflicts := fun k => if k = (r, c) then 0 else s.conflicts k
    selected := some (r, c)
    hints := insert (r, c) s.hints
    lives := s.lives - 1 }
/-- A simple session: originalBoard is the canonical solved board with (0,0)
cleared, the player is dragging a 1 from the palette. -/
def sC4 : GameState :=
  { board := updateBoard canonicalBoard 0 0 none
    originalBoard := updateBoard canonicalBoard 0 0 none
    solution := canonicalBoard
    score := 0
    lives := 6
    status := .playing
    selected := none
    conflicts := fun _ => 0
    hints := ∅
    dragValue := some 1
    showSolution := false }
/-! ### Claim C1: staleness after an in-bounds drop onto an occupied target

`handleInBounds` retracts the contribution of the *source* cell, but when the
drop comes from a board cell it never retracts the value currently sitting in
the *target* cell before overwriting it.  The displaced value's conflict
entries survive, referencing a value no longer on the board. -/
/-- Modelled from the claim's words (not from the source): every recorded
count is supported by a duplicate pair of values currently present on the
board. -/
def conflictsSupported (b : Board) (m : ConflictMap) : Prop :=
  ∀ k : Cell, 0 < m k →
    ∃ p : Cell, p ≠ k ∧ peersPair p k ∧ b k.1 k.2 ≠ none ∧ b p.1 p.2 = b k.1 k.2
instance conflictsSupported.dec (b : Board) (m : ConflictMap) :
    Decidable (conflictsSupported b m) := by
  unfold conflictsSupported
  infer_instance
/-- Player board: a 5 at (0,0), a 3 at (0,5) and a 3 at (8,5) (one column
conflict), on a board whose cells are all non-fixed. -/
def boardC1 : Board :=
  updateBoard (updateBoard (updateBoard createEmptyBoard 0 0 (some 5)) 0 5 (some 3))
    8 5 (some 3)
/-- The conflict map matching `boardC1`: one symmetric pair for the two 3s. -/
def mapC1 : ConflictMap :=
  fun k => if k = ((0 : Fin 9), (5 : Fin 9)) ∨ k = ((8 : Fin 9), (5 : Fin 9)) then 1 else 0
/-- Mid-drag session state over `boardC1`: the player is dragging the 5 that
sits at (0,0). -/
def sC1 : GameState :=
  { board := boardC1
    originalBoard := createEmptyBoard
    solution := canonicalBoard
    score := 0
    lives := 5
    status := .playing
    selected := some (0, 0)
    conflicts := mapC1
    hints := ∅
    dragValue := some 5
    showSolution := false }
/-! ### Claim C2: a hint can conflict with a wrong player value

`addHint` writes the solution's value and merely deletes the cell's own stale
conflict entry.  If the player has already placed a wrong value that
duplicates the hint in its row, column or block, the freshly placed correct
value does conflict, and the code records none of it. -/
/-- Puzzle: the canonical solved board with (0,0), (0,1) and (8,1) carved
out. -/
def puzzleC2 : Board :=
  updateBoard (updateBoard (updateBoard canonicalBoard 0 0 none) 0 1 none) 8 1 none
/-- The player has filled (0,1) with 1 — wrong (the solution there is 2) but
conflict-free on this board. -/
def boardC2 : Board := updateBoard puzzleC2 0 1 (some 1)
def sC2 : GameState :=
  { board := boardC2
    originalBoard := puzzleC2
    solution := canonicalBoard
    score := 20
    lives := 5
    status := .playing
    selected := none
    conflicts := fun _ => 0
    hints := ∅
    dragValue := none
    showSolution := false }

/-! ### Pointwise characterization of `getConflicts`

The imperative loops of `getConflicts` only ever increment map entries, so the
final map sends each key to the total number of increments it received.  The
lemmas below derive that closed form, which drives all universal theorems
about the conflict tracker. -/
theorem bump_apply (m : ConflictMap) (a k : Cell) :
    bump m a k = m k + if k = a then 1 else 0 := by
  by_cases h : k = a <;> simp [bump, Function.update_apply, h]
theorem rowColStep_apply (b : Board) (row col : Fin 9) (val : Nat) (m : ConflictMap)
    (i : Fin 9) (k : Cell) :
    rowColStep b row col val m i k = m k + rcContrib b row col val i k := by
  simp only [rowColStep, rcContrib, ite_apply, bump_apply]
  split_ifs <;> omega
theorem blockStep_apply (b : Board) (row col : Fin 9) (val : Nat) (m : ConflictMap)
    (ij : Fin 3 × Fin 3) (k : Cell) :
    blockStep b row col val m ij k = m k + blkContrib b row col val ij k := by
  simp only [blockStep, blkContrib, ite_apply, bump_apply]
  split_ifs <;> omega
theorem foldl_apply_of_add {α : Type} (step : ConflictMap → α → ConflictMap)
    (f : α → Cell → Nat) (h : ∀ m a k, step m a k = m k + f a k) :
    ∀ (l : List α) (m : ConflictMap) (k : Cell),
      l.foldl step m k = m k + (l.map fun a => f a k).sum := by
  intro l
  induction l with
  | nil => intro m k; simp
  | cons a t ih => intro m k; simp [ih, h, add_assoc]
theorem blockPairs_map_sum (h : Fin 3 × Fin 3 → Nat) :
    (blockPairs.map h).sum = ∑ ij : Fin 3 × Fin 3, h ij := by
  have e : blockPairs =
      [(0, 0), (0, 1), (0, 2), (1, 0), (1, 1), (1, 2), (2, 0), (2, 1), (2, 2)] := by decide
  rw [e]
  simp [Fintype.sum_prod_type, Fin.sum_univ_three]
  ring
theorem getConflicts_apply (b : Board) (row col : Fin 9) (val : Nat) (k : Cell) :
    getConflicts b row col val k =
      (∑ i : Fin 9, rcContrib b row col val i k) +
        ∑ ij : Fin 3 × Fin 3, blkContrib b row col val ij k := by
  have h1 := foldl_apply_of_add (rowColStep b row col val) (rcContrib b row col val)
    (rowColStep_apply b row col val) (List.finRange 9)
  have h2 := foldl_apply_of_add (blockStep b row col val) (blkContrib b row col val)
    (blockStep_apply b row col val) blockPairs
  simp only [getConflicts, h2, h1]
  rw [blockPairs_map_sum, Fin.sum_univ_def]
  omega
theorem blockBase_blockCellAt_fst (row col : Fin 9) (i j : Fin 3) :
    blockBase (blockCellAt row col i j).1 = blockBase row := by
  apply Fin.ext
  simp only [blockCellAt, blockBase]
  omega
theorem blockBase_blockCellAt_snd (row col : Fin 9) (i j : Fin 3) :
    blockBase (blockCellAt row col i j).2 = blockBase col := by
  apply Fin.ext
  simp only [blockCellAt, blockBase]
  omega
theorem blockCellAt_inj (row col : Fin 9) (i j i' j' : Fin 3)
    (h : blockCellAt row col i j = blockCellAt row col i' j') : i = i' ∧ j = j' := by
  simp only [blockCellAt, Prod.ext_iff, Fin.ext_iff] at h
  exact ⟨Fin.ext (by omega), Fin.ext (by omega)⟩
theorem sameBlockPair_exists (p : Cell) (row col : Fin 9) (h : sameBlockPair p (row, col)) :
    ∃ i j, blockCellAt row col i j = p := by
  obtain ⟨h1, h2⟩ := h
  rw [Fin.ext_iff] at h1 h2
  simp only [blockBase] at h1 h2
  refine ⟨⟨p.1.val % 3, by omega⟩, ⟨p.2.val % 3, by omega⟩, ?_⟩
  simp only [blockCellAt, blockBase, Prod.ext_iff, Fin.ext_iff]
  constructor <;> omega
theorem sum_rcContrib_self (b : Board) (row col : Fin 9) (val : Nat) :
    ∑ i : Fin 9, rcContrib b row col val i (row, col) =
      rowScanCount b row col val + colScanCount b row col val := by
  have h : ∀ i, rcContrib b row col val i (row, col) =
      (if i ≠ col ∧ b row i = some val then 1 else 0) +
        if i ≠ row ∧ b i col = some val then 1 else 0 := by
    intro i
    simp only [rcContrib]
    split_ifs <;> simp_all [Prod.ext_iff]
  simp only [h, Finset.sum_add_distrib, Finset.sum_boole, Nat.cast_id]
  rfl
theorem sum_blkContrib_self (b : Board) (row col : Fin 9) (val : Nat) :
    ∑ ij : Fin 3 × Fin 3, blkContrib b row col val ij (row, col) =
      blockScanCount b row col val := by
  have h : ∀ ij : Fin 3 × Fin 3, blkContrib b row col val ij (row, col) =
      if blockCellAt row col ij.1 ij.2 ≠ (row, col) ∧
          b (blockCellAt row col ij.1 ij.2).1 (blockCellAt row col ij.1 ij.2).2 = some val then
        1 else 0 := by
    intro ij
    simp only [blkContrib]
    split_ifs <;> simp_all
  rw [Finset.sum_congr rfl fun ij _ => h ij]
  rw [Finset.sum_boole, Nat.cast_id]
  unfold blockScanCount
  apply Finset.card_bij fun ij _ => blockCellAt row col ij.1 ij.2
  · intro a ha
    simp only [Finset.mem_filter] at ha ⊢
    exact ⟨Finset.mem_univ _,
      ⟨blockBase_blockCellAt_fst row col a.1 a.2, blockBase_blockCellAt_snd row col a.1 a.2⟩,
      ha.2.1, ha.2.2⟩
  · intro a1 h1 a2 h2 heq
    obtain ⟨e1, e2⟩ := blockCellAt_inj row col a1.1 a1.2 a2.1 a2.2 heq
    exact Prod.ext e1 e2
  · intro p hp
    simp only [Finset.mem_filter] at hp
    obtain ⟨i, j, hij⟩ := sameBlockPair_exists p row col hp.2.1
    refine ⟨(i, j), ?_, hij⟩
    simp only [Finset.mem_filter, hij]
    exact ⟨Finset.mem_univ _, hp.2.2.1, hp.2.2.2⟩
/-- Closed form for the queried cell's own entry: the total number of matches
found by the three scans. -/
theorem getConflicts_self (b : Board) (row col : Fin 9) (val : Nat) :
    getConflicts b row col val (row, col) =
      rowScanCount b row col val + colScanCount b row col val + blockScanCount b row col val := by
  rw [getConflicts_apply, sum_rcContrib_self, sum_blkContrib_self]
theorem sum_row_part (b : Board) (row col : Fin 9) (val : Nat) (k : Cell) :
    (∑ i : Fin 9, if i ≠ col ∧ b row i = some val then (if k = (row, i) then 1 else 0) else 0)
      = rowInd b row col val k := by
  rcases k with ⟨k1, k2⟩
  rw [Finset.sum_eq_single k2]
  · unfold rowInd
    by_cases h1 : k2 ≠ col ∧ b row k2 = some val
    · rw [if_pos h1]
      by_cases h2 : k1 = row
      · subst h2
        rw [if_pos rfl, if_pos ⟨rfl, h1.1, h1.2⟩]
      · rw [if_neg fun he => h2 (congrArg Prod.fst he), if_neg fun hc => h2 hc.1]
    · rw [if_neg h1, if_neg fun hc => h1 ⟨hc.2.1, hc.2.2⟩]
  · intro i _ hne
    by_cases hc : i ≠ col ∧ b row i = some val
    · rw [if_pos hc, if_neg]
      intro he
      exact hne (congrArg Prod.snd he).symm
    · rw [if_neg hc]
  · intro habs
    exact absurd (Finset.mem_univ k2) habs
theorem sum_col_part (b : Board) (row col : Fin 9) (val : Nat) (k : Cell) :
    (∑ i : Fin 9, if i ≠ row ∧ b i col = some val then (if k = (i, col) then 1 else 0) else 0)
      = colInd b row col val k := by
  rcases k with ⟨k1, k2⟩
  rw [Finset.sum_eq_single k1]
  · unfold colInd
    by_cases h1 : k1 ≠ row ∧ b k1 col = some val
    · rw [if_pos h1]
      by_cases h2 : k2 = col
      · subst h2
        rw [if_pos rfl, if_pos ⟨rfl, h1.1, h1.2⟩]
      · rw [if_neg fun he => h2 (congrArg Prod.snd he), if_neg fun hc => h2 hc.1]
    · rw [if_neg h1, if_neg fun hc => h1 ⟨hc.2.1, hc.2.2⟩]
  · intro i _ hne
    by_cases hc : i ≠ row ∧ b i col = some val
    · rw [if_pos hc, if_neg]
      intro he
      exact hne (congrArg Prod.fst he).symm
    · rw [if_neg hc]
  · intro habs
    exact absurd (Finset.mem_univ k1) habs
theorem sum_rcContrib_ne (b : Board) (row col : Fin 9) (val : Nat) (k : Cell)
    (hk : k ≠ (row, col)) :
    ∑ i : Fin 9, rcContrib b row col val i k =
      rowInd b row col val k + colInd b row col val k := by
  have split : ∀ i, rcContrib b row col val i k =
      (if i ≠ col ∧ b row i = some val then (if k = (row, i) then 1 else 0) else 0) +
        if i ≠ row ∧ b i col = some val then (if k = (i, col) then 1 else 0) else 0 := by
    intro i
    simp only [rcContrib, if_neg hk]
    split_ifs <;> omega
  rw [Finset.sum_congr rfl fun i _ => split i, Finset.sum_add_distrib,
    sum_row_part b row col val k, sum_col_part b row col val k]
theorem sum_blkContrib_ne (b : Board) (row col : Fin 9) (val : Nat) (k : Cell)
    (hk : k ≠ (row, col)) :
    ∑ ij : Fin 3 × Fin 3, blkContrib b row col val ij k = blkInd b row col val k := by
  by_cases hin : sameBlockPair k (row, col)
  · obtain ⟨i0, j0, hij⟩ := sameBlockPair_exists k row col hin
    rw [Finset.sum_eq_single (i0, j0)]
    · simp only [blkContrib, blkInd, hij]
      by_cases hc : b k.1 k.2 = some val
      · rw [if_pos (show k ≠ (row, col) ∧ b k.1 k.2 = some val from ⟨hk, hc⟩), if_neg hk,
          if_pos (show sameBlockPair k (row, col) ∧ k ≠ (row, col) ∧ b k.1 k.2 = some val from
            ⟨hin, hk, hc⟩)]
        simp
      · rw [if_neg fun hand => hc hand.2, if_neg fun hand => hc hand.2.2]
    · intro ij _ hne
      have hz1 : ¬ k = blockCellAt row col ij.1 ij.2 := by
        intro he
        obtain ⟨e1, e2⟩ := blockCellAt_inj row col ij.1 ij.2 i0 j0 (by rw [← he, hij])
        exact hne (Prod.ext e1 e2)
      simp only [blkContrib]
      by_cases h1 : blockCellAt row col ij.1 ij.2 ≠ (row, col) ∧
          b (blockCellAt row col ij.1 ij.2).1 (blockCellAt row col ij.1 ij.2).2 = some val
      · rw [if_pos h1, if_neg hz1, if_neg hk]
        rfl
      · rw [if_neg h1]
    · intro hmem
      exact absurd (Finset.mem_univ _) hmem
  · have h : ∀ ij : Fin 3 × Fin 3, blkContrib b row col val ij k = 0 := by
      intro ij
      have hz1 : ¬ k = blockCellAt row col ij.1 ij.2 := by
        intro he
        exact hin (by
          rw [he]
          exact ⟨blockBase_blockCellAt_fst row col ij.1 ij.2,
            blockBase_blockCellAt_snd row col ij.1 ij.2⟩)
      simp only [blkContrib]
      by_cases h1 : blockCellAt row col ij.1 ij.2 ≠ (row, col) ∧
          b (blockCellAt row col ij.1 ij.2).1 (blockCellAt row col ij.1 ij.2).2 = some val
      · rw [if_pos h1, if_neg hz1, if_neg hk]
      · rw [if_neg h1]
    simp only [h, Finset.sum_const_zero, blkInd]
    rw [if_neg fun hcond => hin hcond.1]
/-- Closed form for the entry of any key other than the queried cell. -/
theorem getConflicts_ne (b : Board) (row col : Fin 9) (val : Nat) (k : Cell)
    (hk : k ≠ (row, col)) :
    getConflicts b row col val k =
      rowInd b row col val k + colInd b row col val k + blkInd b row col val k := by
  rw [getConflicts_apply, sum_rcContrib_ne b row col val k hk, sum_blkContrib_ne b row col val k hk]
theorem sameBlockPair_symm (p q : Cell) (h : sameBlockPair p q) : sameBlockPair q p :=
  ⟨h.1.symm, h.2.symm⟩
/-- `getConflicts` returns the empty map exactly when no peer of the queried
cell currently holds the value (the JS `size === 0` check). -/
theorem getConflicts_eq_zero_iff (b : Board) (row col : Fin 9) (val : Nat) :
    (∀ k, getConflicts b row col val k = 0) ↔
      ∀ p : Cell, p ≠ (row, col) → peersPair p (row, col) → b p.1 p.2 ≠ some val := by
  constructor
  · intro h p hne hpeer hval
    have hself := getConflicts_self b row col val
    rw [h (row, col)] at hself
    rcases hpeer with h1 | h1 | h1
    · have h1 : p.1 = row := h1
      have hne2 : p.2 ≠ col := fun hc => hne (Prod.ext h1 hc)
      have hval2 : b row p.2 = some val := by rw [← h1]; exact hval
      have hpos : 0 < rowScanCount b row col val :=
        Finset.card_pos.mpr ⟨p.2, by
          simp only [Finset.mem_filter]
          exact ⟨Finset.mem_univ _, hne2, hval2⟩⟩
      omega
    · have h1 : p.2 = col := h1
      have hne1 : p.1 ≠ row := fun hr => hne (Prod.ext hr h1)
      have hval2 : b p.1 col = some val := by rw [← h1]; exact hval
      have hpos : 0 < colScanCount b row col val :=
        Finset.card_pos.mpr ⟨p.1, by
          simp only [Finset.mem_filter]
          exact ⟨Finset.mem_univ _, hne1, hval2⟩⟩
      omega
    · have hpos : 0 < blockScanCount b row col val :=
        Finset.card_pos.mpr ⟨p, by
          simp only [Finset.mem_filter]
          exact ⟨Finset.mem_univ _, h1, hne, hval⟩⟩
      omega
  · intro h k
    by_cases hk : k = (row, col)
    · subst hk
      rw [getConflicts_self]
      have hr : rowScanCount b row col val = 0 := by
        apply Finset.card_eq_zero.mpr
        apply Finset.filter_eq_empty_iff.mpr
        intro i _ hc
        exact h (row, i) (fun he => hc.1 (congrArg Prod.snd he)) (Or.inl rfl) hc.2
      have hc : colScanCount b row col val = 0 := by
        apply Finset.card_eq_zero.mpr
        apply Finset.filter_eq_empty_iff.mpr
        intro i _ hc
        exact h (i, col) (fun he => hc.1 (congrArg Prod.fst he)) (Or.inr (Or.inl rfl)) hc.2
      have hb : blockScanCount b row col val = 0 := by
        apply Finset.card_eq_zero.mpr
        apply Finset.filter_eq_empty_iff.mpr
        intro p _ hc
        exact h p hc.2.1 (Or.inr (Or.inr hc.1)) hc.2.2
      omega
    · rw [getConflicts_ne b row col val k hk]
      have h1 : rowInd b row col val k = 0 := by
        unfold rowInd
        rw [if_neg]
        intro hc
        have hv := hc.2.2
        rw [← hc.1] at hv
        exact h k hk (Or.inl hc.1) hv
      have h2 : colInd b row col val k = 0 := by
        unfold colInd
        rw [if_neg]
        intro hc
        have hv := hc.2.2
        rw [← hc.1] at hv
        exact h k hk (Or.inr (Or.inl hc.1)) hv
      have h3 : blkInd b row col val k = 0 := by
        unfold blkInd
        rw [if_neg]
        intro hc
        exact h k hk (Or.inr (Or.inr hc.1)) hc.2.2
      omega
/-- C3 counterexample: querying (0,0) for the value 5 on a board whose only
occupied cell is a 5 at (0,1) gives the queried cell the count 2 — the peer
(0,1) shares both the row and the block and is found by both scans — although
the cell has exactly one distinct duplicate peer.  So the count `getConflicts`
assigns to the queried cell is not the number of distinct peers holding the
value. -/
theorem getConflicts_count_ne_distinct_peers :
    getConflicts boardC3 0 0 5 ((0 : Fin 9), (0 : Fin 9)) = 2 ∧
      specPeerCount boardC3 0 0 5 = 1 ∧
      getConflicts boardC3 0 0 5 ((0 : Fin 9), (0 : Fin 9)) ≠ specPeerCount boardC3 0 0 5 := by
  refine ⟨by decide, by decide, by decide⟩
/-- C3 (amended): for every board and placement, the count `getConflicts`
assigns to the queried cell equals the number of row peers holding the value,
plus the number of column peers holding it, plus the number of block peers
holding it — each duplicate peer is counted once per scan that finds it, so a
peer sharing both the row (or column) and the block of the queried cell
contributes 2, not 1. -/
theorem getConflicts_count_eq_per_scan_matches (b : Board) (row col : Fin 9) (val : Nat) :
    getConflicts b row col val (row, col) =
      rowScanCount b row col val + colScanCount b row col val + blockScanCount b row col val :=
  getConflicts_self b row col val
/-! ### Claim C6: retract-then-re-add cancellation -/
/-- C6: for a cell `(row, col)` holding `v` and a conflict map consistent with
the board — every peer entry at least this cell's contribution to it, and the
cell's own entry exactly its own conflict count — applying
`removeConflictsForCell` and then merging `getConflicts` for the same
placement back in restores the map exactly. -/
theorem retract_then_merge_roundtrip (b : Board) (m : ConflictMap) (row col : Fin 9) (v : Nat)
    (_hold : b row col = some v)
    (hpeer : ∀ k, k ≠ (row, col) → getConflicts b row col v k ≤ m k)
    (hself : m (row, col) = getConflicts b row col v (row, col)) :
    mergeConflicts (removeConflictsForCell b m row col v) (getConflicts b row col v) = m := by
  funext k
  simp only [mergeConflicts, removeConflictsForCell]
  by_cases hk : k = (row, col)
  · rw [if_pos hk, hk]
    omega
  · rw [if_neg hk]
    have hp := hpeer k hk
    by_cases hpos : 0 < getConflicts b row col v k
    · rw [if_pos hpos]
      by_cases hle : m k ≤ getConflicts b row col v k
      · rw [if_pos hle]
        omega
      · rw [if_neg hle]
        omega
    · rw [if_neg hpos]
      omega
theorem retract_then_merge_roundtrip_witness :
    boardC6 0 0 = some 5 ∧
      (∀ k, k ≠ ((0 : Fin 9), (0 : Fin 9)) → getConflicts boardC6 0 0 5 k ≤ mapC6 k) ∧
      mapC6 (0, 0) = getConflicts boardC6 0 0 5 (0, 0) ∧
      mergeConflicts (removeConflictsForCell boardC6 mapC6 0 0 5) (getConflicts boardC6 0 0 5) =
        mapC6 :=
  ⟨by decide, by decide, by decide,
    retract_then_merge_roundtrip boardC6 mapC6 0 0 5 (by decide) (by decide) (by decide)⟩
/-! ### Claim C7: symmetry of `getConflicts` -/
/-- C7: if the map returned by `getConflicts b row col v` assigns a positive
count `cnt` to a peer cell `P`, then after placing `v` at `(row, col)` the
query from `P`'s coordinates assigns the same count `cnt` to `(row, col)`. -/
theorem getConflicts_symm (b : Board) (row col : Fin 9) (v cnt : Nat) (P : Cell)
    (hP : P ≠ (row, col)) (hcount : getConflicts b row col v P = cnt) (hpos : 0 < cnt) :
    getConflicts (updateBoard b row col (some v)) P.1 P.2 v (row, col) = cnt := by
  subst hcount
  have hchar := getConflicts_ne b row col v P hP
  have hbP : b P.1 P.2 = some v := by
    rw [hchar] at hpos
    by_contra hnb
    have h1 : rowInd b row col v P = 0 := by
      unfold rowInd
      rw [if_neg]
      intro hc
      have hv := hc.2.2
      rw [← hc.1] at hv
      exact hnb hv
    have h2 : colInd b row col v P = 0 := by
      unfold colInd
      rw [if_neg]
      intro hc
      have hv := hc.2.2
      rw [← hc.1] at hv
      exact hnb hv
    have h3 : blkInd b row col v P = 0 := by
      unfold blkInd
      rw [if_neg]
      intro hc
      exact hnb hc.2.2
    omega
  have hne : ((row, col) : Cell) ≠ (P.1, P.2) := by
    intro he
    exact hP (Prod.ext (congrArg Prod.fst he.symm) (congrArg Prod.snd he.symm))
  rw [getConflicts_ne (updateBoard b row col (some v)) P.1 P.2 v (row, col) hne, hchar]
  have hself : updateBoard b row col (some v) row col = some v := by
    simp [updateBoard]
  have er : rowInd (updateBoard b row col (some v)) P.1 P.2 v (row, col) =
      rowInd b row col v P := by
    unfold rowInd
    by_cases h1 : P.1 = row
    · by_cases h2 : P.2 = col
      · exact absurd (Prod.ext h1 h2) hP
      · have hb' : updateBoard b row col (some v) P.1 col = some v := by rw [h1]; exact hself
        have hbr : b row P.2 = some v := by rw [← h1]; exact hbP
        rw [if_pos ⟨h1.symm, fun hc => h2 hc.symm, hb'⟩, if_pos ⟨h1, h2, hbr⟩]
    · rw [if_neg fun hc => h1 hc.1.symm, if_neg fun hc => h1 hc.1]
  have ec : colInd (updateBoard b row col (some v)) P.1 P.2 v (row, col) =
      colInd b row col v P := by
    unfold colInd
    by_cases h1 : P.2 = col
    · by_cases h2 : P.1 = row
      · exact absurd (Prod.ext h2 h1) hP
      · have hb' : updateBoard b row col (some v) row P.2 = some v := by rw [h1]; exact hself
        have hbc : b P.1 col = some v := by rw [← h1]; exact hbP
        rw [if_pos ⟨h1.symm, fun hc => h2 hc.symm, hb'⟩, if_pos ⟨h1, h2, hbc⟩]
    · rw [if_neg fun hc => h1 hc.1.symm, if_neg fun hc => h1 hc.1]
  have eb : blkInd (updateBoard b row col (some v)) P.1 P.2 v (row, col) =
      blkInd b row col v P := by
    unfold blkInd
    by_cases h1 : sameBlockPair P (row, col)
    · have h1' : sameBlockPair ((row, col) : Cell) (P.1, P.2) := sameBlockPair_symm _ _ h1
      rw [if_pos ⟨h1', hne, hself⟩, if_pos ⟨h1, hP, hbP⟩]
    · have h1' : ¬ sameBlockPair ((row, col) : Cell) (P.1, P.2) :=
        fun hc => h1 (sameBlockPair_symm _ _ hc)
      rw [if_neg fun hc => h1' hc.1, if_neg fun hc => h1 hc.1]
  rw [er, ec, eb]
theorem getConflicts_symm_witness :
    (((0 : Fin 9), (1 : Fin 9)) : Cell) ≠ ((0 : Fin 9), (0 : Fin 9)) ∧
      getConflicts boardC3 0 0 5 ((0 : Fin 9), (1 : Fin 9)) = 2 ∧
      0 < 2 ∧
      getConflicts (updateBoard boardC3 0 0 (some 5)) 0 1 5 ((0 : Fin 9), (0 : Fin 9)) = 2 :=
  ⟨by decide, by decide, by decide,
    getConflicts_symm boardC3 0 0 5 2 ((0 : Fin 9), (1 : Fin 9)) (by decide) (by decide)
      (by decide)⟩
theorem peersPair_symm (p q : Cell) (h : peersPair p q) : peersPair q p := by
  rcases h with h | h | h
  · exact Or.inl h.symm
  · exact Or.inr (Or.inl h.symm)
  · exact Or.inr (Or.inr (sameBlockPair_symm _ _ h))
theorem allPositions_complete : ∀ p : Cell, p ∈ allPositions := by decide
theorem allPositions_nodup : allPositions.Nodup := by decide
theorem allPositions_length : allPositions.length = 81 := by decide
theorem firstEmpty_some (b : Board) (p : Cell) (h : firstEmpty b = some p) :
    b p.1 p.2 = none := by
  have hfind := List.find?_some h
  simpa [Option.isNone_iff_eq_none] using hfind
theorem firstEmpty_none (b : Board) (h : firstEmpty b = none) : fullBoard b := by
  intro p hnone
  have hall := List.find?_eq_none.mp h p (allPositions_complete p)
  exact hall (by simp [hnone])
theorem mem_digits_iff (n : Nat) : n ∈ digits ↔ 1 ≤ n ∧ n ≤ 9 := by
  simp [digits]
  omega
theorem emptyCount_pos (b : Board) (r c : Fin 9) (h : b r c = none) : 0 < emptyCount b :=
  Finset.card_pos.mpr ⟨(r, c), by simp [emptyCount, Finset.mem_filter, h]⟩
theorem emptyCount_update (b : Board) (r c : Fin 9) (v : Nat) (h : b r c = none) :
    emptyCount (updateBoard b r c (some v)) = emptyCount b - 1 := by
  unfold emptyCount
  have hset :
      ((Finset.univ : Finset Cell).filter fun p => updateBoard b r c (some v) p.1 p.2 = none) =
        ((Finset.univ : Finset Cell).filter fun p => b p.1 p.2 = none).erase (r, c) := by
    ext p
    simp only [Finset.mem_filter, Finset.mem_erase, Finset.mem_univ, true_and, updateBoard]
    constructor
    · intro hp
      by_cases he : p.1 = r ∧ p.2 = c
      · rw [if_pos he] at hp
        cases hp
      · rw [if_neg he] at hp
        exact ⟨fun hpe => he ⟨by rw [hpe], by rw [hpe]⟩, hp⟩
    · intro hmem
      rw [if_neg fun he => hmem.1 (Prod.ext he.1 he.2)]
      exact hmem.2
  rw [hset, Finset.card_erase_of_mem]
  simp [Finset.mem_filter, h]
theorem noDup_update (b : Board) (r c : Fin 9) (num : Nat) (hb : noDupBoard b)
    (hfree : ∀ p : Cell, p ≠ (r, c) → peersPair p (r, c) → b p.1 p.2 ≠ some num) :
    noDupBoard (updateBoard b r c (some num)) := by
  intro p q hpq hpeer w hp hq
  simp only [updateBoard] at hp hq
  by_cases hpe : p.1 = r ∧ p.2 = c
  · rw [if_pos hpe] at hp
    have hpcell : p = (r, c) := Prod.ext hpe.1 hpe.2
    by_cases hqe : q.1 = r ∧ q.2 = c
    · exact hpq (hpcell.trans (Prod.ext hqe.1 hqe.2).symm)
    · rw [if_neg hqe] at hq
      have hqnum : b q.1 q.2 = some num := by
        rw [Option.some.inj hp]
        exact hq
      exact hfree q (fun he => hqe ⟨congrArg Prod.fst he, congrArg Prod.snd he⟩)
        (hpcell ▸ peersPair_symm p q hpeer) hqnum
  · rw [if_neg hpe] at hp
    by_cases hqe : q.1 = r ∧ q.2 = c
    · rw [if_pos hqe] at hq
      have hqcell : q = (r, c) := Prod.ext hqe.1 hqe.2
      have hpnum : b p.1 p.2 = some num := by
        rw [Option.some.inj hq]
        exact hp
      exact hfree p (fun he => hpe ⟨congrArg Prod.fst he, congrArg Prod.snd he⟩)
        (hqcell ▸ hpeer) hpnum
    · rw [if_neg hqe] at hq
      exact hb p q hpq hpeer w hp hq
theorem bounded_update (b : Board) (r c : Fin 9) (num : Nat) (hb : boundedBoard b)
    (h1 : 1 ≤ num) (h2 : num ≤ 9) : boundedBoard (updateBoard b r c (some num)) := by
  intro p w hp
  simp only [updateBoard] at hp
  by_cases hpe : p.1 = r ∧ p.2 = c
  · rw [if_pos hpe] at hp
    rw [← Option.some.inj hp]
    exact ⟨h1, h2⟩
  · rw [if_neg hpe] at hp
    exact hb p w hp
theorem boardLe_update (b B : Board) (r c : Fin 9) (num : Nat) (hle : boardLe b B)
    (hBv : B r c = some num) : boardLe (updateBoard b r c (some num)) B := by
  intro p w hp
  simp only [updateBoard] at hp
  by_cases hpe : p.1 = r ∧ p.2 = c
  · rw [if_pos hpe] at hp
    rw [hpe.1, hpe.2, hBv]
    exact hp
  · rw [if_neg hpe] at hp
    exact hle p w hp
theorem tryNums_sound (solveNext : Board → Option Board) (b : Board) (r c : Fin 9)
    (_hrc : b r c = none) (hnd : noDupBoard b) (hbd : boundedBoard b)
    (hnums : ∀ n ∈ nums, 1 ≤ n ∧ n ≤ 9)
    (hnext : ∀ b2 b3, noDupBoard b2 → boundedBoard b2 → solveNext b2 = some b3 →
      fullBoard b3 ∧ noDupBoard b3 ∧ boundedBoard b3)
    (b' : Board) (h : tryNums solveNext b r c nums = some b') :
    fullBoard b' ∧ noDupBoard b' ∧ boundedBoard b' := by
  induction nums with
  | nil => cases h
  | cons num rest ih =>
    have hnum := hnums num (List.mem_cons_self num rest)
    simp only [tryNums] at h
    by_cases hguard : ∀ k, getConflicts b r c num k = 0
    · rw [if_pos hguard] at h
      have hfree := (getConflicts_eq_zero_iff b r c num).mp hguard
      cases hnx : solveNext (updateBoard b r c (some num)) with
      | some b3 =>
        rw [hnx] at h
        cases h
        exact hnext _ _ (noDup_update b r c num hnd hfree)
          (bounded_update b r c num hbd hnum.1 hnum.2) hnx
      | none =>
        rw [hnx] at h
        exact ih (fun n hn => hnums n (List.mem_cons_of_mem _ hn)) h
    · rw [if_neg hguard] at h
      exact ih (fun n hn => hnums n (List.mem_cons_of_mem _ hn)) h
theorem solveFuel_sound (rand : Nat → List Nat)
    (hrand : ∀ n, ∀ v ∈ rand n, 1 ≤ v ∧ v ≤ 9) :
    ∀ (fuel depth : Nat) (b b' : Board), noDupBoard b → boundedBoard b →
      solveFuel rand fuel depth b = some b' →
      fullBoard b' ∧ noDupBoard b' ∧ boundedBoard b' := by
  intro fuel
  induction fuel with
  | zero => intro depth b b' _ _ h; cases h
  | succ fuel ih =>
    intro depth b b' hnd hbd h
    simp only [solveFuel] at h
    cases hfe : firstEmpty b with
    | none =>
      rw [hfe] at h
      cases h
      exact ⟨firstEmpty_none b hfe, hnd, hbd⟩
    | some p =>
      rw [hfe] at h
      obtain ⟨r, c⟩ := p
      exact tryNums_sound (solveFuel rand fuel (depth + 1)) b r c
        (firstEmpty_some b (r, c) hfe) hnd hbd (hrand depth)
        (fun b2 b3 h2 h3 hs => ih (depth + 1) b2 b3 h2 h3 hs) b' h
theorem tryNums_complete (solveNext : Board → Option Board) (b : Board) (r c : Fin 9)
    (nums : List Nat)
    (hwit : ∃ num ∈ nums, (∀ k, getConflicts b r c num k = 0) ∧
      ∃ b2, solveNext (updateBoard b r c (some num)) = some b2) :
    ∃ b', tryNums solveNext b r c nums = some b' := by
  induction nums with
  | nil =>
    obtain ⟨num, hmem, _⟩ := hwit
    cases hmem
  | cons num rest ih =>
    simp only [tryNums]
    by_cases hguard : ∀ k, getConflicts b r c num k = 0
    · rw [if_pos hguard]
      cases hnx : solveNext (updateBoard b r c (some num)) with
      | some b2 => exact ⟨b2, rfl⟩
      | none =>
        apply ih
        obtain ⟨num', hmem, hg, b2, hs⟩ := hwit
        rcases List.mem_cons.mp hmem with he | hmem'
        · subst he
          rw [hnx] at hs
          cases hs
        · exact ⟨num', hmem', hg, b2, hs⟩
    · rw [if_neg hguard]
      apply ih
      obtain ⟨num', hmem, hg, b2, hs⟩ := hwit
      rcases List.mem_cons.mp hmem with he | hmem'
      · subst he
        exact absurd hg hguard
      · exact ⟨num', hmem', hg, b2, hs⟩
theorem solveFuel_complete (rand : Nat → List Nat)
    (hrand : ∀ n, (rand n).Perm digits) :
    ∀ (fuel depth : Nat) (b : Board), completable b → emptyCount b < fuel →
      ∃ b', solveFuel rand fuel depth b = some b' := by
  intro fuel
  induction fuel with
  | zero => intro depth b _ hlt; omega
  | succ fuel ih =>
    intro depth b hcomp hlt
    simp only [solveFuel]
    cases hfe : firstEmpty b with
    | none => exact ⟨b, rfl⟩
    | some p =>
      obtain ⟨r, c⟩ := p
      have hrc : b r c = none := firstEmpty_some b (r, c) hfe
      obtain ⟨B, hle, hfull, hnd, hbd⟩ := hcomp
      obtain ⟨d, hd⟩ : ∃ d, B r c = some d := by
        cases hB : B r c with
        | none => exact absurd hB (hfull (r, c))
        | some d => exact ⟨d, rfl⟩
      have hdmem : d ∈ rand depth := by
        rw [List.Perm.mem_iff (hrand depth), mem_digits_iff]
        exact hbd (r, c) d hd
      apply tryNums_complete
      refine ⟨d, hdmem, ?_, ?_⟩
      · apply (getConflicts_eq_zero_iff b r c d).mpr
        intro p hne hpeer hval
        exact hnd p (r, c) hne hpeer d (hle p d hval) hd
      · apply ih (depth + 1)
        · exact ⟨B, boardLe_update b B r c d hle hd, hfull, hnd, hbd⟩
        · have := emptyCount_update b r c d hrc
          have := emptyCount_pos b r c hrc
          omega
theorem canonicalBoard_solved :
    fullBoard canonicalBoard ∧ noDupBoard canonicalBoard ∧ boundedBoard canonicalBoard := by
  have hvals : ∀ p q : Cell, p ≠ q → peersPair p q →
      (3 * (p.1.val % 3) + p.1.val / 3 + p.2.val) % 9 + 1 ≠
        (3 * (q.1.val % 3) + q.1.val / 3 + q.2.val) % 9 + 1 := by decide
  have hbnd : ∀ p : Cell,
      1 ≤ (3 * (p.1.val % 3) + p.1.val / 3 + p.2.val) % 9 + 1 ∧
        (3 * (p.1.val % 3) + p.1.val / 3 + p.2.val) % 9 + 1 ≤ 9 := by decide
  refine ⟨fun p => by simp [canonicalBoard], ?_, ?_⟩
  · intro p q hpq hpeer w hp hq
    simp only [canonicalBoard] at hp hq
    exact hvals p q hpq hpeer (by rw [Option.some.inj hp, Option.some.inj hq])
  · intro p w hp
    simp only [canonicalBoard] at hp
    rw [← Option.some.inj hp]
    exact hbnd p
theorem vals_helper (b : Board) (hfull : fullBoard b) (p : Cell) : ∃ w, b p.1 p.2 = some w := by
  cases hb : b p.1 p.2 with
  | none => exact absurd hb (hfull p)
  | some w => exact ⟨w, rfl⟩
theorem line_vals_eq {ι : Type} [Fintype ι] [DecidableEq ι] (hcard : Fintype.card ι = 9)
    (b : Board) (hfull : fullBoard b) (hnd : noDupBoard b) (hbd : boundedBoard b)
    (cell : ι → Cell) (hinj : ∀ i j, i ≠ j → cell i ≠ cell j)
    (hpeer : ∀ i j, i ≠ j → peersPair (cell i) (cell j)) :
    Finset.univ.image (fun i => (b (cell i).1 (cell i).2).getD 0) = Finset.Icc 1 9 := by
  apply Finset.eq_of_subset_of_card_le
  · intro x hx
    obtain ⟨i, _, hi⟩ := Finset.mem_image.mp hx
    obtain ⟨w, hw⟩ := vals_helper b hfull (cell i)
    rw [hw] at hi
    simp only [Option.getD_some] at hi
    subst hi
    exact Finset.mem_Icc.mpr (hbd (cell i) w hw)
  · have hinj' : Set.InjOn (fun i => (b (cell i).1 (cell i).2).getD 0)
        (Finset.univ : Finset ι) := by
      intro i _ j _ he
      by_contra hne
      obtain ⟨wi, hwi⟩ := vals_helper b hfull (cell i)
      obtain ⟨wj, hwj⟩ := vals_helper b hfull (cell j)
      simp only [hwi, hwj, Option.getD_some] at he
      exact hnd (cell i) (cell j) (hinj i j hne) (hpeer i j hne) wi hwi
        (by rw [he]; exact hwj)
    rw [Finset.card_image_of_injOn hinj', Finset.card_univ, hcard]
    simp [Nat.card_Icc]
theorem rowVals_of_solved (b : Board) (hfull : fullBoard b) (hnd : noDupBoard b)
    (hbd : boundedBoard b) (r : Fin 9) : rowVals b r = Finset.Icc 1 9 :=
  line_vals_eq (by simp) b hfull hnd hbd (fun c => (r, c))
    (fun _ _ hne he => hne (congrArg Prod.snd he))
    (fun _ _ _ => Or.inl rfl)
theorem colVals_of_solved (b : Board) (hfull : fullBoard b) (hnd : noDupBoard b)
    (hbd : boundedBoard b) (c : Fin 9) : colVals b c = Finset.Icc 1 9 :=
  line_vals_eq (by simp) b hfull hnd hbd (fun r => (r, c))
    (fun _ _ hne he => hne (congrArg Prod.fst he))
    (fun _ _ _ => Or.inr (Or.inl rfl))
theorem blockVals_of_solved (b : Board) (hfull : fullBoard b) (hnd : noDupBoard b)
    (hbd : boundedBoard b) (i j : Fin 3) : blockVals b i j = Finset.Icc 1 9 := by
  apply line_vals_eq (by simp) b hfull hnd hbd
    (fun uv : Fin 3 × Fin 3 =>
      (⟨i.val * 3 + uv.1.val, by have := i.isLt; have := uv.1.isLt; omega⟩,
       ⟨j.val * 3 + uv.2.val, by have := j.isLt; have := uv.2.isLt; omega⟩))
  · intro u v hne he
    simp only [Prod.ext_iff, Fin.ext_iff] at he
    apply hne
    have h1 := u.1.isLt
    have h2 := u.2.isLt
    have h3 := v.1.isLt
    have h4 := v.2.isLt
    exact Prod.ext (Fin.ext (by omega)) (Fin.ext (by omega))
  · intro u v _
    refine Or.inr (Or.inr ⟨Fin.ext ?_, Fin.ext ?_⟩) <;>
      · simp only [blockBase]
        have h1 := u.1.isLt
        have h2 := u.2.isLt
        have h3 := v.1.isLt
        have h4 := v.2.isLt
        omega
/-- Shared facts about the generator's output: the solver succeeds within its
fuel bound and the resulting board is full, duplicate-free and uses digits
1..9 only. -/
theorem generateSolvedSudoku_props (rand : Nat → List Nat)
    (hrand : ∀ n, (rand n).Perm digits) :
    (solveFuel rand 82 0 createEmptyBoard).isSome = true ∧
      fullBoard (generateSolvedSudoku rand) ∧
      noDupBoard (generateSolvedSudoku rand) ∧ boundedBoard (generateSolvedSudoku rand) := by
  have hle0 : boardLe createEmptyBoard canonicalBoard := by
    intro p w hp
    simp [createEmptyBoard] at hp
  have hcomp : completable createEmptyBoard :=
    ⟨canonicalBoard, hle0, canonicalBoard_solved.1,
      canonicalBoard_solved.2.1, canonicalBoard_solved.2.2⟩
  have hlt : emptyCount createEmptyBoard < 82 := by decide
  obtain ⟨b', hb'⟩ := solveFuel_complete rand hrand 82 0 createEmptyBoard hcomp hlt
  have hrand' : ∀ n, ∀ v ∈ rand n, 1 ≤ v ∧ v ≤ 9 := fun n v hv =>
    (mem_digits_iff v).mp ((hrand n).mem_iff.mp hv)
  have hnd0 : noDupBoard createEmptyBoard := by
    intro p q _ _ w hp
    simp [createEmptyBoard] at hp
  have hbd0 : boundedBoard createEmptyBoard := by
    intro p w hp
    simp [createEmptyBoard] at hp
  obtain ⟨hfull, hnd, hbd⟩ := solveFuel_sound rand hrand' 82 0 createEmptyBoard b' hnd0 hbd0 hb'
  have hgen : generateSolvedSudoku rand = b' := by
    unfold generateSolvedSudoku
    rw [hb']
  rw [hgen, hb']
  exact ⟨rfl, hfull, hnd, hbd⟩
/-- C8: for every sequence of shuffled digit lists, the backtracking solver
terminates within the fuel bound `82` — one placement per recursive call, at
most 81 empty cells — and the returned board is completely filled with every
row, every column, and every 3×3 block exactly the set of digits 1..9. -/
theorem generateSolvedSudoku_solved (rand : Nat → List Nat)
    (hrand : ∀ n, (rand n).Perm digits) :
    (solveFuel rand 82 0 createEmptyBoard).isSome = true ∧
      fullBoard (generateSolvedSudoku rand) ∧
      (∀ r, rowVals (generateSolvedSudoku rand) r = Finset.Icc 1 9) ∧
      (∀ c, colVals (generateSolvedSudoku rand) c = Finset.Icc 1 9) ∧
      ∀ i j, blockVals (generateSolvedSudoku rand) i j = Finset.Icc 1 9 := by
  obtain ⟨hsome, hfull, hnd, hbd⟩ := generateSolvedSudoku_props rand hrand
  exact ⟨hsome, hfull, fun r => rowVals_of_solved _ hfull hnd hbd r,
    fun c => colVals_of_solved _ hfull hnd hbd c,
    fun i j => blockVals_of_solved _ hfull hnd hbd i j⟩
theorem generateSolvedSudoku_solved_witness :
    (∀ n, ((fun _ : Nat => digits) n).Perm digits) ∧
      ((solveFuel (fun _ => digits) 82 0 createEmptyBoard).isSome = true ∧
        fullBoard (generateSolvedSudoku (fun _ => digits)) ∧
        (∀ r, rowVals (generateSolvedSudoku (fun _ => digits)) r = Finset.Icc 1 9) ∧
        (∀ c, colVals (generateSolvedSudoku (fun _ => digits)) c = Finset.Icc 1 9) ∧
        ∀ i j, blockVals (generateSolvedSudoku (fun _ => digits)) i j = Finset.Icc 1 9) :=
  ⟨fun _ => List.Perm.refl digits,
    generateSolvedSudoku_solved (fun _ => digits) fun _ => List.Perm.refl digits⟩
/-! ### Claim C9: carving -/
theorem foldl_remove_apply (l : List Cell) (b : Board) (p : Cell) :
    (l.foldl (fun b q => updateBoard b q.1 q.2 none) b) p.1 p.2 =
      if p ∈ l then none else b p.1 p.2 := by
  induction l generalizing b with
  | nil => simp
  | cons q t ih =>
    simp only [List.foldl_cons, ih]
    by_cases hpt : p ∈ t
    · rw [if_pos hpt, if_pos (List.mem_cons_of_mem q hpt)]
    · rw [if_neg hpt]
      by_cases hq : p = q
      · rw [if_pos (by rw [hq]; exact List.mem_cons_self q t)]
        simp only [updateBoard]
        rw [if_pos ⟨congrArg Prod.fst hq, congrArg Prod.snd hq⟩]
      · rw [if_neg (by
          intro h
          rcases List.mem_cons.mp h with he | ht
          exacts [hq he, hpt ht])]
        simp only [updateBoard]
        rw [if_neg fun hc => hq (Prod.ext hc.1 hc.2)]
theorem removeCells_apply (solved : Board) (l : List Cell) (n : Nat) (p : Cell) :
    removeCells solved l n p.1 p.2 = if p ∈ l.take n then none else solved p.1 p.2 :=
  foldl_remove_apply (l.take n) solved p
theorem removeCells_emptyCount (solved : Board) (l : List Cell) (n : Nat)
    (hnodup : l.Nodup) (hfull : fullBoard solved) :
    emptyCount (removeCells solved l n) = (l.take n).length := by
  unfold emptyCount
  have hset : ((Finset.univ : Finset Cell).filter fun p => removeCells solved l n p.1 p.2 = none)
      = (l.take n).toFinset := by
    ext p
    simp only [Finset.mem_filter, Finset.mem_univ, true_and, List.mem_toFinset,
      removeCells_apply]
    constructor
    · intro h
      by_cases hp : p ∈ l.take n
      · exact hp
      · rw [if_neg hp] at h
        exact absurd h (hfull p)
    · intro hp
      rw [if_pos hp]
  rw [hset, List.toFinset_card_of_nodup (hnodup.sublist (List.take_sublist n l))]
/-- C9: for every difficulty, carving nulls exactly `min (removalCount d) 81`
cells of a copy of the solved board (2, 35, 45, 55 for the four difficulties),
leaves every non-removed cell equal to the solution, and returns the solution
unchanged. -/
theorem generatePuzzledifficulty_spec (rand : Nat → List Nat) (positions : List Cell)
    (d : Difficulty) (hrand : ∀ n, (rand n).Perm digits)
    (hperm : positions.Perm allPositions) :
    (generatePuzzledifficulty rand positions d).2 = generateSolvedSudoku rand ∧
      emptyCount (generatePuzzledifficulty rand positions d).1 = min (removalCount d) 81 ∧
      (∀ p : Cell, p ∉ positions.take (removalCount d) →
        (generatePuzzledifficulty rand positions d).1 p.1 p.2 =
          (generatePuzzledifficulty rand positions d).2 p.1 p.2) ∧
      (∀ p : Cell, p ∈ positions.take (removalCount d) →
        (generatePuzzledifficulty rand positions d).1 p.1 p.2 = none) ∧
      removalCount .imTooYoungToDie = 2 ∧ removalCount .easy = 35 ∧
      removalCount .medium = 45 ∧ removalCount .hard = 55 := by
  obtain ⟨_, hfull, _, _⟩ := generateSolvedSudoku_props rand hrand
  have hnodup : positions.Nodup := hperm.nodup_iff.mpr allPositions_nodup
  have hlen : positions.length = 81 := by
    rw [hperm.length_eq, allPositions_length]
  refine ⟨rfl, ?_, ?_, ?_, rfl, rfl, rfl, rfl⟩
  · show emptyCount (removeCells (generateSolvedSudoku rand) positions (removalCount d)) = _
    rw [removeCells_emptyCount _ _ _ hnodup hfull, List.length_take, hlen]
  · intro p hp
    show removeCells (generateSolvedSudoku rand) positions (removalCount d) p.1 p.2 = _
    rw [removeCells_apply, if_neg hp]
    rfl
  · intro p hp
    show removeCells (generateSolvedSudoku rand) positions (removalCount d) p.1 p.2 = none
    rw [removeCells_apply, if_pos hp]
theorem generatePuzzledifficulty_spec_witness :
    (∀ n, ((fun _ : Nat => digits) n).Perm digits) ∧ allPositions.Perm allPositions ∧
      ((generatePuzzledifficulty (fun _ => digits) allPositions .imTooYoungToDie).2 =
          generateSolvedSudoku (fun _ => digits) ∧
        emptyCount (generatePuzzledifficulty (fun _ => digits) allPositions
            .imTooYoungToDie).1 = min (removalCount .imTooYoungToDie) 81 ∧
        (∀ p : Cell, p ∉ allPositions.take (removalCount .imTooYoungToDie) →
          (generatePuzzledifficulty (fun _ => digits) allPositions .imTooYoungToDie).1 p.1 p.2 =
            (generatePuzzledifficulty (fun _ => digits) allPositions .imTooYoungToDie).2
              p.1 p.2) ∧
        (∀ p : Cell, p ∈ allPositions.take (removalCount .imTooYoungToDie) →
          (generatePuzzledifficulty (fun _ => digits) allPositions .imTooYoungToDie).1 p.1 p.2 =
            none) ∧
        removalCount .imTooYoungToDie = 2 ∧ removalCount .easy = 35 ∧
        removalCount .medium = 45 ∧ removalCount .hard = 55) :=
  ⟨fun _ => List.Perm.refl digits, List.Perm.refl allPositions,
    generatePuzzledifficulty_spec (fun _ => digits) allPositions .imTooYoungToDie
      (fun _ => List.Perm.refl digits) (List.Perm.refl allPositions)⟩
theorem handleInBounds_of_drag (s : GameState) (source : Option Cell) (tr tc : Fin 9)
    (v : Nat) (hdrag : s.dragValue = some v) :
    handleInBounds s source tr tc = applyInBounds s source tr tc v := by
  unfold handleInBounds
  rw [hdrag]
/-! ### Claim C10: every new game uses the easy removal count -/
/-- C10: `newGame` always invokes the generator with difficulty `easy`, so the
`originalBoard` of a fresh session has exactly 35 empty cells and 46 clues. -/
theorem newGame_always_easy (rand : Nat → List Nat) (positions : List Cell)
    (hrand : ∀ n, (rand n).Perm digits) (hperm : positions.Perm allPositions) :
    (newGame rand positions).originalBoard =
      (generatePuzzledifficulty rand positions .easy).1 ∧
      emptyCount (newGame rand positions).originalBoard = 35 ∧
      ((Finset.univ : Finset Cell).filter
        fun p => (newGame rand positions).originalBoard p.1 p.2 ≠ none).card = 46 := by
  obtain ⟨_, hfull, _, _⟩ := generateSolvedSudoku_props rand hrand
  have hnodup : positions.Nodup := hperm.nodup_iff.mpr allPositions_nodup
  have hlen : positions.length = 81 := by
    rw [hperm.length_eq, allPositions_length]
  have hempty : emptyCount (newGame rand positions).originalBoard = 35 := by
    show emptyCount (removeCells (generateSolvedSudoku rand) positions 35) = 35
    rw [removeCells_emptyCount _ _ _ hnodup hfull, List.length_take, hlen]
    decide
  refine ⟨rfl, hempty, ?_⟩
  have hcompl : ((Finset.univ : Finset Cell).filter
      fun p => (newGame rand positions).originalBoard p.1 p.2 ≠ none) =
      Finset.univ \ ((Finset.univ : Finset Cell).filter
        fun p => (newGame rand positions).originalBoard p.1 p.2 = none) := by
    ext p
    simp [Finset.mem_sdiff, Finset.mem_filter]
  rw [hcompl, Finset.card_sdiff (Finset.filter_subset _ _), Finset.card_univ]
  have h35 : ((Finset.univ : Finset Cell).filter
      fun p => (newGame rand positions).originalBoard p.1 p.2 = none).card = 35 := hempty
  rw [h35]
  simp
theorem newGame_always_easy_witness :
    (∀ n, ((fun _ : Nat => digits) n).Perm digits) ∧ allPositions.Perm allPositions ∧
      ((newGame (fun _ => digits) allPositions).originalBoard =
          (generatePuzzledifficulty (fun _ => digits) allPositions .easy).1 ∧
        emptyCount (newGame (fun _ => digits) allPositions).originalBoard = 35 ∧
        ((Finset.univ : Finset Cell).filter
          fun p => (newGame (fun _ => digits) allPositions).originalBoard p.1 p.2 ≠ none).card =
            46) :=
  ⟨fun _ => List.Perm.refl digits, List.Perm.refl allPositions,
    newGame_always_easy (fun _ => digits) allPositions (fun _ => List.Perm.refl digits)
      (List.Perm.refl allPositions)⟩
/-! ### Claim C4: drops never touch clue or hint cells -/
theorem updateBoard_ne (b : Board) (r c : Fin 9) (v : Option Nat) (q : Cell)
    (h : ((r, c) : Cell) ≠ q) : updateBoard b r c v q.1 q.2 = b q.1 q.2 := by
  simp only [updateBoard]
  rw [if_neg fun hc => h (Prod.ext hc.1 hc.2).symm]
theorem handleOutOfBounds_board_ne (s : GameState) (sr sc : Fin 9) (q : Cell)
    (h : ((sr, sc) : Cell) ≠ q) :
    (handleOutOfBounds s sr sc).board q.1 q.2 = s.board q.1 q.2 := by
  dsimp only [handleOutOfBounds]
  exact updateBoard_ne _ _ _ _ _ h
theorem applyInBounds_board_ne (s : GameState) (source : Option Cell) (tr tc : Fin 9)
    (v : Nat) (q : Cell) (hsrc : source.getD (tr, tc) ≠ q) (htgt : ((tr, tc) : Cell) ≠ q) :
    (applyInBounds s source tr tc v).board q.1 q.2 = s.board q.1 q.2 := by
  simp only [applyInBounds]
  split_ifs <;>
    · dsimp only
      rw [updateBoard_ne _ _ _ _ _ htgt]
      exact updateBoard_ne s.board (source.getD (tr, tc)).1 (source.getD (tr, tc)).2 none q hsrc
/-- C4: a drop transaction never changes the value of a clue cell (non-null in
`originalBoard`) or of a hint cell, given that the UI only produces drag
sources and drop targets whose droppable/draggable is enabled (non-fixed and
not a hint, per `SudokuCell`). -/
theorem drop_preserves_fixed_and_hint_cells (s : GameState) (source target : Option Cell)
    (hsrc : ∀ p, source = some p → s.originalBoard p.1 p.2 = none ∧ p ∉ s.hints)
    (htgt : ∀ p, target = some p → s.originalBoard p.1 p.2 = none ∧ p ∉ s.hints)
    (q : Cell) (hq : s.originalBoard q.1 q.2 ≠ none ∨ q ∈ s.hints) :
    (handleDrop s source target).board q.1 q.2 = s.board q.1 q.2 := by
  have hfree : ∀ p : Cell, s.originalBoard p.1 p.2 = none ∧ p ∉ s.hints → p ≠ q := by
    intro p hp he
    rcases hq with h | h
    · exact h (he ▸ hp.1)
    · exact hp.2 (by rw [he]; exact h)
  cases target with
  | none =>
    cases source with
    | none => rfl
    | some p =>
      show (handleOutOfBounds s p.1 p.2).board q.1 q.2 = s.board q.1 q.2
      exact handleOutOfBounds_board_ne s p.1 p.2 q (hfree p (hsrc p rfl))
  | some t =>
    show (if isInvalidDrop s source t then s else handleInBounds s source t.1 t.2).board q.1 q.2
      = s.board q.1 q.2
    by_cases hinv : isInvalidDrop s source t
    · rw [if_pos hinv]
    · rw [if_neg hinv]
      have htq : ((t.1, t.2) : Cell) ≠ q := hfree t (htgt t rfl)
      have hsq : source.getD (t.1, t.2) ≠ q := by
        cases source with
        | none => exact htq
        | some p => exact hfree p (hsrc p rfl)
      cases hd : s.dragValue with
      | none =>
        unfold handleInBounds
        rw [hd]
      | some v =>
        rw [handleInBounds_of_drag s source t.1 t.2 v hd]
        exact applyInBounds_board_ne s source t.1 t.2 v q hsq htq
theorem drop_preserves_fixed_and_hint_cells_witness :
    (∀ p : Cell, (none : Option Cell) = some p →
        sC4.originalBoard p.1 p.2 = none ∧ p ∉ sC4.hints) ∧
      (∀ p : Cell, (some ((0 : Fin 9), (0 : Fin 9)) : Option Cell) = some p →
        sC4.originalBoard p.1 p.2 = none ∧ p ∉ sC4.hints) ∧
      (sC4.originalBoard 5 5 ≠ none ∨ (((5 : Fin 9), (5 : Fin 9)) : Cell) ∈ sC4.hints) ∧
      (handleDrop sC4 none (some ((0 : Fin 9), (0 : Fin 9)))).board 5 5 = sC4.board 5 5 :=
  ⟨by decide, by decide, by decide,
    drop_preserves_fixed_and_hint_cells sC4 none (some ((0 : Fin 9), (0 : Fin 9)))
      (by decide) (by decide) ((5 : Fin 9), (5 : Fin 9)) (by decide)⟩
/-! ### Claim C5: the in-bounds drop transaction -/
/-- C5: for every valid in-bounds drop of a dragged value onto a non-fixed
target distinct from the source: when the new placement has conflicts, the
counts are merged into the (source-retracted) conflict map, lives drop by
exactly 1 and 10 is subtracted from the score delta; when it is conflict-free
and the target was previously empty, 20 is added; the resulting score is
clamped at 0; the selection becomes the target and the drag value is
cleared. -/
theorem inBounds_drop_spec (s : GameState) (source : Option Cell) (t : Cell) (v : Nat)
    (hdrag : s.dragValue = some v) (hv : 0 < v)
    (hfix : s.originalBoard t.1 t.2 = none) (hne : source ≠ some t) :
    ((∃ k, 0 < getConflicts
        (updateBoard (updateBoard s.board (source.getD t).1 (source.getD t).2 none)
          t.1 t.2 (some v)) t.1 t.2 v k) →
      (handleDrop s source (some t)).conflicts =
          mergeConflicts (retractSource s (source.getD t).1 (source.getD t).2).1
            (getConflicts
              (updateBoard (updateBoard s.board (source.getD t).1 (source.getD t).2 none)
                t.1 t.2 (some v)) t.1 t.2 v) ∧
        (handleDrop s source (some t)).lives = s.lives - 1 ∧
        (handleDrop s source (some t)).score =
          max (s.score + (retractSource s (source.getD t).1 (source.getD t).2).2 - 10) 0) ∧
    ((¬ ∃ k, 0 < getConflicts
        (updateBoard (updateBoard s.board (source.getD t).1 (source.getD t).2 none)
          t.1 t.2 (some v)) t.1 t.2 v k) → s.board t.1 t.2 = none →
      (handleDrop s source (some t)).score =
          max (s.score + (retractSource s (source.getD t).1 (source.getD t).2).2 + 20) 0 ∧
        (handleDrop s source (some t)).lives = s.lives) ∧
    0 ≤ (handleDrop s source (some t)).score ∧
    (handleDrop s source (some t)).selected = some t ∧
    (handleDrop s source (some t)).dragValue = none := by
  have hvalid : ¬ isInvalidDrop s source t := by
    intro h
    rcases h with h | h | h
    · rcases h with h | h
      · rw [hdrag] at h
        cases h
      · rw [hdrag] at h
        have := Option.some.inj h
        omega
    · exact h hfix
    · exact hne h
  have hd : handleDrop s source (some t) = applyInBounds s source t.1 t.2 v := by
    show (if isInvalidDrop s source t then s else handleInBounds s source t.1 t.2) = _
    rw [if_neg hvalid, handleInBounds_of_drag s source t.1 t.2 v hdrag]
  rw [hd]
  simp only [applyInBounds]
  split_ifs with h1 h2
  · exact ⟨fun _ => ⟨rfl, rfl, rfl⟩, fun hno _ => absurd h1 hno, le_max_right _ _, rfl, rfl⟩
  · exact ⟨fun hy => absurd hy h1, fun _ _ => ⟨rfl, rfl⟩, le_max_right _ _, rfl, rfl⟩
  · exact ⟨fun hy => absurd hy h1, fun _ hemp => absurd hemp h2, le_max_right _ _, rfl, rfl⟩
theorem inBounds_drop_spec_witness :
    sC4.dragValue = some 1 ∧ (0 : Nat) < 1 ∧
      sC4.originalBoard 0 0 = none ∧ (none : Option Cell) ≠ some ((0 : Fin 9), (0 : Fin 9)) ∧
      ((∃ k, 0 < getConflicts
          (updateBoard (updateBoard sC4.board
              ((none : Option Cell).getD ((0 : Fin 9), (0 : Fin 9))).1
              ((none : Option Cell).getD ((0 : Fin 9), (0 : Fin 9))).2 none)
            0 0 (some 1)) 0 0 1 k) →
        (handleDrop sC4 none (some ((0 : Fin 9), (0 : Fin 9)))).conflicts =
            mergeConflicts (retractSource sC4
                ((none : Option Cell).getD ((0 : Fin 9), (0 : Fin 9))).1
                ((none : Option Cell).getD ((0 : Fin 9), (0 : Fin 9))).2).1
              (getConflicts
                (updateBoard (updateBoard sC4.board
                    ((none : Option Cell).getD ((0 : Fin 9), (0 : Fin 9))).1
                    ((none : Option Cell).getD ((0 : Fin 9), (0 : Fin 9))).2 none)
                  0 0 (some 1)) 0 0 1) ∧
          (handleDrop sC4 none (some ((0 : Fin 9), (0 : Fin 9)))).lives = sC4.lives - 1 ∧
          (handleDrop sC4 none (some ((0 : Fin 9), (0 : Fin 9)))).score =
            max (sC4.score + (retractSource sC4
                ((none : Option Cell).getD ((0 : Fin 9), (0 : Fin 9))).1
                ((none : Option Cell).getD ((0 : Fin 9), (0 : Fin 9))).2).2 - 10) 0) ∧
      ((¬ ∃ k, 0 < getConflicts
          (updateBoard (updateBoard sC4.board
              ((none : Option Cell).getD ((0 : Fin 9), (0 : Fin 9))).1
              ((none : Option Cell).getD ((0 : Fin 9), (0 : Fin 9))).2 none)
            0 0 (some 1)) 0 0 1 k) → sC4.board 0 0 = none →
        (handleDrop sC4 none (some ((0 : Fin 9), (0 : Fin 9)))).score =
            max (sC4.score + (retractSource sC4
                ((none : Option Cell).getD ((0 : Fin 9), (0 : Fin 9))).1
                ((none : Option Cell).getD ((0 : Fin 9), (0 : Fin 9))).2).2 + 20) 0 ∧
          (handleDrop sC4 none (some ((0 : Fin 9), (0 : Fin 9)))).lives = sC4.lives) ∧
      0 ≤ (handleDrop sC4 none (some ((0 : Fin 9), (0 : Fin 9)))).score ∧
      (handleDrop sC4 none (some ((0 : Fin 9), (0 : Fin 9)))).selected =
        some ((0 : Fin 9), (0 : Fin 9)) ∧
      (handleDrop sC4 none (some ((0 : Fin 9), (0 : Fin 9)))).dragValue = none :=
  ⟨rfl, by decide, by decide, by decide,
    inBounds_drop_spec sC4 none ((0 : Fin 9), (0 : Fin 9)) 1 rfl (by decide) (by decide)
      (by decide)⟩
/-- C1 fails on the code: the conflict map of `sC1` is supported by its board,
but after dropping the 5 from (0,0) onto the occupied non-fixed target (0,5),
the displaced 3's entries survive: (8,5) still has count 1 while no duplicate
pair supports any recorded entry — the map references a value (the displaced
3) that is no longer on the board. -/
theorem inBounds_drop_leaves_stale_entries :
    conflictsSupported sC1.board sC1.conflicts ∧
      (handleDrop sC1 (some ((0 : Fin 9), (0 : Fin 9)))
          (some ((0 : Fin 9), (5 : Fin 9)))).board 0 5 = some 5 ∧
      (handleDrop sC1 (some ((0 : Fin 9), (0 : Fin 9)))
          (some ((0 : Fin 9), (5 : Fin 9)))).board 8 5 = some 3 ∧
      (handleDrop sC1 (some ((0 : Fin 9), (0 : Fin 9)))
          (some ((0 : Fin 9), (5 : Fin 9)))).conflicts ((8 : Fin 9), (5 : Fin 9)) = 1 ∧
      ¬ conflictsSupported
          (handleDrop sC1 (some ((0 : Fin 9), (0 : Fin 9)))
            (some ((0 : Fin 9), (5 : Fin 9)))).board
          (handleDrop sC1 (some ((0 : Fin 9), (0 : Fin 9)))
            (some ((0 : Fin 9), (5 : Fin 9)))).conflicts := by
  refine ⟨by decide, by decide, by decide, by decide, by decide⟩
/-- C2 fails on the code: `addHint` may fire at the empty non-fixed cell
(0,0); the solution value 1 written there duplicates the wrong player value 1
at (0,1) (same row and same block, so the queried cell's count is 2), yet the
state after `addHintAt` records no conflict at all. -/
theorem addHint_value_can_conflict :
    (¬ fixedCells sC2 (0, 0)) ∧ sC2.board 0 0 = none ∧
      sC2.solution 0 0 = some 1 ∧
      sC2.board 0 1 = some 1 ∧ canonicalBoard 0 1 = some 2 ∧
      (∃ k, 0 < getConflicts (addHintAt sC2 0 0).board 0 0 1 k) ∧
      getConflicts (addHintAt sC2 0 0).board 0 0 1 ((0 : Fin 9), (0 : Fin 9)) = 2 ∧
      ∀ k, (addHintAt sC2 0 0).conflicts k = 0 := by
  refine ⟨by decide, by decide, by decide, by decide, by decide, by decide, by decide, by decide⟩
